import Mathlib

/-!
Verification development for the Mercor job-bot pipeline (`src/bot.py`).

The Python source is shallowly embedded: strings become `List Char`,
pure helpers (`is_excluded_title`, `optimize_description`, the response
cleaning in `analyze_job`) become Lean functions translated line by line,
and the effectful pipeline (`main`'s pagination loop and per-posting
processing loop) becomes explicit state passing over a behaviour record
that models the external renderer and classification service.
-/

namespace MercorBot

/-! ## Basic string utilities (models of Python `str` operations) -/

/-- Model of Python `s.startswith(pat)` on character lists. -/
def startsWith : List Char → List Char → Bool
  | [], _ => true
  | _ :: _, [] => false
  | p :: ps, c :: cs => p == c && startsWith ps cs

/-- Model of Python `s.endswith(pat)`. -/
def listEndsWith (pat s : List Char) : Bool :=
  startsWith pat.reverse s.reverse

/-- Model of Python `s.find(pat)`: index of the first occurrence of `pat`
in `s`, `none` when absent (Python returns `-1`). -/
def findSub (pat : List Char) : List Char → Option Nat
  | [] => if startsWith pat [] then some 0 else none
  | c :: rest =>
    if startsWith pat (c :: rest) then some 0
    else (findSub pat rest).map (· + 1)

/-- Model of Python `pat in s` (substring containment). -/
def containsSub (pat s : List Char) : Bool :=
  (findSub pat s).isSome

/-- Model of Python `s.strip()`: drop leading and trailing whitespace. -/
def stripChars (s : List Char) : List Char :=
  ((s.dropWhile Char.isWhitespace).reverse.dropWhile Char.isWhitespace).reverse

/-- Word character for the regex `\b` boundary semantics (`\w`), restricted
to the ASCII range the titles in this repository use. -/
def isWordChar (c : Char) : Bool := c.isAlphanum || c == '_'

/-- Whether position `i` of `s` holds a word character (out of range counts
as a non-word position, as at the edges of a regex subject). -/
def wcAt (s : List Char) (i : Nat) : Bool :=
  match s.get? i with
  | some c => isWordChar c
  | none => false

/-- Regex `\b` at position `i` of `s`: exactly one side is a word char. -/
def boundary (s : List Char) (i : Nat) : Bool :=
  (if i = 0 then false else wcAt s (i - 1)) != wcAt s i

/-- Model of Python `re.search(r'\b<lit>\b', s) is not None` for a literal
`lit`: some occurrence of `lit` with `\b` holding on both sides. -/
def reSearchWB (lit s : List Char) : Bool :=
  (List.range (s.length + 1)).any fun i =>
    boundary s i && (startsWith lit (s.drop i) && boundary s (i + lit.length))

/-! ## ExclusionFilter (`is_excluded_title`, bot.py lines 34-60) -/

/-- The `EXCLUDED_KEYWORDS` table from bot.py: the literal inside each `\b...\b`. -/
def EXCLUDED_KEYWORDS : List (List Char) :=
  ["senior".toList, "sr.".toList, "lead".toList, "principal".toList,
   "manager".toList, "director".toList, "head of".toList, "vp".toList,
   "architect".toList, "phd".toList, "md".toList, "jd".toList,
   "expert".toList, "advanced".toList, "experienced".toList,
   "iii".toList, "iv".toList]

/-- The `ALLOWED_EXCEPTIONS` table from bot.py (plain-substring regexes). -/
def ALLOWED_EXCEPTIONS : List (List Char) :=
  ["product manager".toList, "project manager".toList,
   "community manager".toList]

/-- Model of `is_excluded_title` from bot.py: lowercase the title, return `false` as
soon as an allow-exception matches, otherwise test the word-bounded
exclusion keywords. -/
def is_excluded_title (title : List Char) : Bool :=
  let tl := title.map Char.toLower
  if ALLOWED_EXCEPTIONS.any (fun e => containsSub e tl) then false
  else EXCLUDED_KEYWORDS.any (fun p => reSearchWB p tl)

/-! ## DescriptionOptimizer (`optimize_description`, bot.py lines 63-102) -/

/-- The `headers` list inside `optimize_description`. -/
def HEADERS : List (List Char) :=
  ["Requirements".toList, "Qualifications".toList, "What you bring".toList,
   "Who you are".toList, "Ideal Candidate".toList, "Skills".toList,
   "Prerequisites".toList]

/-- The `best_start` loop of `optimize_description` (`none` plays Python's
`-1`): for each header, `idx = text.find(header)`; when found and either no
best yet or strictly smaller, it becomes the new best. -/
def bsAux (t : List Char) : List (List Char) → Option Nat → Option Nat
  | [], best => best
  | h :: hs, best =>
    match findSub h t, best with
    | some idx, none => bsAux t hs (some idx)
    | some idx, some b => bsAux t hs (if idx < b then some idx else some b)
    | none, best => bsAux t hs best

/-- The value of `best_start` after the header loop of `optimize_description`. -/
def bestStart (t : List Char) : Option Nat := bsAux t HEADERS none

/-- The truncation marker appended by `optimize_description`. -/
def TRUNC_MARKER : List Char := "\n...[TRUNCATED]...".toList

/-- Model of `optimize_description` from bot.py: window from 500 chars before the
earliest header (clamped to 0) to the end, hard-capped at 3000 chars with
the marker appended. -/
def optimize_description (text : List Char) : List Char :=
  if text = [] then []
  else
    let optimized :=
      match bestStart text with
      | some b => text.drop (b - 500)
      | none => text
    if 3000 < optimized.length then optimized.take 3000 ++ TRUNC_MARKER
    else optimized

/-! ## Classifier (`analyze_job`, bot.py lines 128-176)

The external pieces (`client.models.generate_content`, `json.loads`) are
modelled behaviourally: a call either raises or returns a value. -/

/-- Outcome of a Python expression that may raise. -/
inductive PyResult (α : Type) where
  | ok (val : α)
  | exn
deriving DecidableEq

/-- JSON values, the possible results of `json.loads`. -/
inductive JVal where
  | jnull
  | jbool (b : Bool)
  | jnum (n : Int)
  | jstr (s : List Char)
  | jarr (elems : List JVal)
  | jobj (fields : List (List Char × JVal))

/-- Python truthiness of a JSON value (`if result.get('match'):`). -/
def JVal.truthy : JVal → Bool
  | .jnull => false
  | .jbool b => b
  | .jnum n => n != 0
  | .jstr s => !s.isEmpty
  | .jarr es => !es.isEmpty
  | .jobj fs => !fs.isEmpty

/-- First binding of `key` in a decoded JSON object. -/
def lookupField : List (List Char × JVal) → List Char → Option JVal
  | [], _ => none
  | (k, v) :: rest, key => if k = key then some v else lookupField rest key

/-- Model of `result.get(key)`: `dict.get` on a decoded object, an
`AttributeError` (modelled as `.exn`) on any non-object value. -/
def dictGet : JVal → List Char → PyResult (Option JVal)
  | .jobj fs, key => .ok (lookupField fs key)
  | _, _ => .exn

/-- The response-cleaning steps of `analyze_job`: strip, drop a leading
code-fence marker (7 chars), drop a trailing one (3 chars), strip again. -/
def cleanReply (raw : List Char) : List Char :=
  let t := stripChars raw
  let t := if startsWith "```json".toList t then t.drop 7 else t
  let t := if listEndsWith "```".toList t then t.take (t.length - 3) else t
  stripChars t

/-- The classification-service call for one posting: the text the service
returned, or `.exn` when the call raised. -/
structure GenClient where
  reply : PyResult (List Char)

/-- Model of `analyze_job` from bot.py. `client = none` models `genai_client` being
`None`; `loads` models `json.loads`. Every failure inside the `try` block
(call raised, parse raised, `.get` on a non-dict) is caught and yields
`false`; a missing or falsy `match` field yields `false`. -/
def analyze_job (client : Option GenClient)
    (loads : List Char → PyResult JVal) : Bool :=
  match client with
  | none => false
  | some c =>
    match c.reply with
    | .exn => false
    | .ok raw =>
      match loads (cleanReply raw) with
      | .exn => false
      | .ok v =>
        match dictGet v "match".toList with
        | .exn => false
        | .ok none => false
        | .ok (some mv) => mv.truthy

/-! ## Postings and the per-posting processing loop (bot.py `main`)

`main`'s Phase 2 (lines 313-376) is embedded as a fold over the deduped,
history-filtered job list. The renderer and classifier are a behaviour
record `Beh`; the observable effects (detail fetches attempted,
classification calls, recorded ids, `save_history` writes, the final
`send_email` handoff) are accumulated explicitly. -/

/-- The `Job` dataclass from bot.py. -/
structure Job where
  id : List Char
  title : List Char
  url : List Char
  description : List Char := []
deriving DecidableEq

/-- Outcome of navigating to a posting's detail page (`page.goto` plus the
extraction block): either the navigation raises, or it yields the JSON-LD
description (when present and extracted) and the rendered page text used
as fallback. -/
inductive NavResult where
  | navFail
  | navOk (jsonLd : Option (List Char)) (pageText : List Char)

/-- Whether a detail-fetch outcome is the raising one. -/
def NavResult.fails : NavResult → Bool
  | .navFail => true
  | _ => false

/-- External behaviour of one run: detail-fetch outcome per posting id,
whether a classification client is configured, and the Boolean verdict
`analyze_job` produces for a posting when it is called. -/
structure Beh where
  nav : List Char → NavResult
  hasClient : Bool
  classify : Job → Bool

/-- Fallback rule of bot.py lines 334-350: when the JSON-LD description is
absent or empty, use the rendered page text. -/
def descriptionOf : Option (List Char) → List Char → List Char
  | some d, pageText => if d = [] then pageText else d
  | none, pageText => pageText

/-- Observable state of the Phase-2 loop: `matches`, `processed_ids`, the
ids whose detail pages were navigated to, the ids passed to `analyze_job`,
and the contents of every `save_history` write performed so far. -/
structure RunState where
  matchList : List Job
  processed : List (List Char)
  fetched : List (List Char)
  classified : List (List Char)
  saves : List (List (List Char))
deriving DecidableEq

/-- Initial loop state (`matches = []`, `processed_ids = []`). -/
def initState : RunState :=
  { matchList := [], processed := [], fetched := [], classified := [], saves := [] }

/-- One iteration of the Phase-2 `for` loop (bot.py lines 322-367). A
raising `page.goto` jumps to the per-posting `except`: nothing beyond the
fetch attempt happens — in particular `processed_ids.append` is skipped.
On success the description is optimized, the posting is classified when a
client exists, its id is appended to `processed_ids`, and `save_history`
runs when the count is a multiple of 5. -/
def procStep (history : List (List Char)) (beh : Beh)
    (st : RunState) (job : Job) : RunState :=
  match beh.nav job.id with
  | .navFail => { st with fetched := st.fetched ++ [job.id] }
  | .navOk jsonLd pageText =>
    let job' := { job with
      description := optimize_description (descriptionOf jsonLd pageText) }
    let matches' :=
      if beh.hasClient && beh.classify job' then st.matchList ++ [job']
      else st.matchList
    let classified' :=
      if beh.hasClient then st.classified ++ [job.id] else st.classified
    let processed' := st.processed ++ [job.id]
    let saves' :=
      if processed'.length % 5 = 0 then st.saves ++ [history ++ processed']
      else st.saves
    { matchList := matches', processed := processed',
      fetched := st.fetched ++ [job.id], classified := classified',
      saves := saves' }

/-- Model of `{j.id: j for j in jobs}.values()`: insertion-ordered keys, last value
wins for a duplicate key. -/
def upsert (acc : List Job) (j : Job) : List Job :=
  if acc.any (fun a => a.id == j.id) then
    acc.map (fun a => if a.id = j.id then j else a)
  else acc ++ [j]

/-- The deduplicated `unique_jobs` (bot.py line 315). -/
def dedupById (jobs : List Job) : List Job := jobs.foldl upsert []

/-- The list `new_jobs = [j for j in unique_jobs if j.id not in history]`
(bot.py line 316). -/
def newJobs (history : List (List Char)) (jobs : List Job) : List Job :=
  (dedupById jobs).filter (fun j => decide (j.id ∉ history))

/-- The loop state after processing the first `m` of `new_jobs` — the state
a crash during posting `m + 1` would leave behind (no final save yet). -/
def phase2Upto (history : List (List Char)) (jobs : List Job) (beh : Beh)
    (m : Nat) : RunState :=
  ((newJobs history jobs).take m).foldl (procStep history beh) initState

/-- Result of a completed Phase 2: loop effects plus the unconditional
final `save_history(history + processed_ids)` and the notification
handoff, which bot.py line 373 performs only `if matches:`. -/
structure RunResult where
  matchList : List Job
  processed : List (List Char)
  fetched : List (List Char)
  classified : List (List Char)
  saves : List (List (List Char))
  savedFinal : List (List Char)
  emailCalls : List (List Job)
deriving DecidableEq

/-- The loop state after the whole Phase-2 `for` loop. -/
def loopState (history : List (List Char)) (jobs : List Job) (beh : Beh) :
    RunState :=
  (newJobs history jobs).foldl (procStep history beh) initState

/-- After the loop: the unconditional final
`save_history(history + processed_ids)` (bot.py line 370) and the
notification handoff, which line 373 performs only `if matches:`. -/
def finishRun (history : List (List Char)) (st : RunState) : RunResult :=
  { matchList := st.matchList, processed := st.processed, fetched := st.fetched,
    classified := st.classified,
    saves := st.saves ++ [history ++ st.processed],
    savedFinal := history ++ st.processed,
    emailCalls := if st.matchList.isEmpty then [] else [st.matchList] }

/-- Phase 2 of `main` (bot.py lines 313-376), from a loaded history and the
discovered job list. -/
def phase2 (history : List (List Char)) (jobs : List Job) (beh : Beh) :
    RunResult :=
  finishRun history (loopState history jobs beh)

/-! ## Paginator (bot.py lines 264-311) -/

/-- A hyperlink as the listing-page scan sees it: `href` attribute and
visible text (`link.get_text(strip=True)`). -/
structure RawLink where
  href : List Char
  text : List Char

/-- What the renderer shows for one listing page: its links and the state
of the `button[title="Next"]` control (`nextRaises` models the locator or
visibility check raising). -/
structure PageView where
  links : List RawLink
  nextVisible : Bool
  nextEnabled : Bool
  nextRaises : Bool

/-- The next-button check of bot.py lines 302-311: pagination continues
only when the locator does not raise and the button is visible and
enabled. -/
def nextOk (pv : PageView) : Bool :=
  !pv.nextRaises && (pv.nextVisible && pv.nextEnabled)

/-- The character class `[\w-]` of the `listingId` capture group. -/
def isWordDash (c : Char) : Bool := isWordChar c || c == '-'

/-- First index where `pat` occurs followed by at least one character
satisfying `p` (used for the `listingId=(list_[\w-]+)` search). -/
def findSubThen (pat : List Char) (p : Char → Bool) : List Char → Option Nat
  | [] => none
  | c :: rest =>
    if startsWith pat (c :: rest)
        && (((c :: rest).drop pat.length).head?.map p).getD false then
      some 0
    else (findSubThen pat p rest).map (· + 1)

/-- Model of `re.search(r'listingId=(list_[\w-]+)', href)` followed by
`match.group(1)`. -/
def regexListingId (href : List Char) : Option (List Char) :=
  match findSubThen "listingId=list_".toList isWordDash href with
  | none => none
  | some i =>
    some ("list_".toList ++ (href.drop (i + 15)).takeWhile isWordDash)

/-- Model of `href.split(pat)[-1]`: the text after the last (non-overlapping)
occurrence of `pat`, via fuel-bounded recursion. -/
def afterLastAux (pat : List Char) : Nat → List Char → List Char
  | 0, t => t
  | fuel + 1, t =>
    match findSub pat t with
    | none => t
    | some i => afterLastAux pat fuel (t.drop (i + pat.length))

/-- Model of `href.split('list_')[-1]` (bot.py line 280). -/
def afterLast (pat t : List Char) : List Char := afterLastAux pat t.length t

/-- The per-link body of the scan loop (bot.py lines 272-296), up to but
not including the exclusion filter: extract a job id from the href (two
accepted encodings), build the url, clean the title. -/
def parseLink (l : RawLink) : Option Job :=
  let jobId :=
    if containsSub "listingId=".toList l.href then regexListingId l.href
    else if containsSub "jobs/list_".toList l.href then
      some (afterLast "list_".toList l.href)
    else none
  match jobId with
  | none => none
  | some jid =>
    let title0 := l.text
    let title1 :=
      if containsSub "Apply".toList title0 then
        stripChars (match findSub "Apply".toList title0 with
          | some i => title0.take i
          | none => title0)
      else title0
    let title2 :=
      if 100 < title1.length then title1.take 100 ++ "...".toList else title1
    some { id := jid, title := title2,
           url := "https://work.mercor.com/jobs/".toList ++ jid }

/-- The guard applied to each parsed link: drop the posting when the
zero-cost exclusion filter rejects its title (bot.py lines 292-296). -/
def keepJob (l : RawLink) : Option Job :=
  (parseLink l).bind fun j =>
    if is_excluded_title j.title then none else some j

/-- One page's contribution to `jobs`: parsed links that survive the
zero-cost exclusion filter. -/
def extractJobs (links : List RawLink) : List Job :=
  links.filterMap keepJob

/-- Accumulated pagination state: discovered jobs and pages extracted. -/
structure PagState where
  jobs : List Job
  pages : Nat

/-- The `while current_page <= max_pages` loop (bot.py lines 267-311),
with `fuel` the number of page numbers still allowed. Each iteration
extracts the current page, then either advances past the next-button or
terminates. -/
def pagLoop (render : Nat → PageView) : Nat → Nat → PagState → PagState
  | 0, _, st => st
  | fuel + 1, pageNo, st =>
    let pv := render pageNo
    let st' := { jobs := st.jobs ++ extractJobs pv.links, pages := st.pages + 1 }
    if nextOk pv then pagLoop render fuel (pageNo + 1) st' else st'

/-- The full pagination phase: `max_pages = 5`, starting at page 1. -/
def paginate (render : Nat → PageView) : PagState :=
  pagLoop render 5 1 { jobs := [], pages := 0 }

/-- Discovery followed by Phase 2: the whole pipeline on one run's
behaviour. -/
def runPipeline (render : Nat → PageView) (history : List (List Char))
    (beh : Beh) : RunResult :=
  phase2 history (paginate render).jobs beh

/-! ## Lemmas about substring search (`findSub`) -/

theorem findSub_nil (pat : List Char) :
    findSub pat [] = if startsWith pat [] then some 0 else none := rfl

theorem findSub_cons (pat : List Char) (c : Char) (rest : List Char) :
    findSub pat (c :: rest) =
      if startsWith pat (c :: rest) then some 0
      else (findSub pat rest).map (· + 1) := rfl

theorem findSub_of_startsWith {pat u : List Char}
    (h : startsWith pat u = true) : findSub pat u = some 0 := by
  cases u with
  | nil => rw [findSub_nil, if_pos h]
  | cons c rest => rw [findSub_cons, if_pos h]

theorem startsWith_of_findSub_zero {pat u : List Char}
    (h : findSub pat u = some 0) : startsWith pat u = true := by
  cases u with
  | nil =>
    rw [findSub_nil] at h
    by_cases hs : startsWith pat [] = true
    · exact hs
    · rw [if_neg hs] at h; exact absurd h (by simp)
  | cons c rest =>
    rw [findSub_cons] at h
    by_cases hs : startsWith pat (c :: rest) = true
    · exact hs
    · rw [if_neg hs] at h
      cases hr : findSub pat rest with
      | none => rw [hr] at h; simp at h
      | some q => rw [hr] at h; simp at h

theorem findSub_drop_some {pat t : List Char} {q : Nat} (s : Nat)
    (h : findSub pat t = some q) (hs : s ≤ q) :
    findSub pat (t.drop s) = some (q - s) := by
  induction s generalizing t q with
  | zero => simpa using h
  | succ s ih =>
    cases t with
    | nil =>
      rw [findSub_nil] at h
      by_cases hp : startsWith pat [] = true
      · rw [if_pos hp] at h
        injection h with h'
        omega
      · rw [if_neg hp] at h; exact absurd h (by simp)
    | cons c rest =>
      rw [findSub_cons] at h
      by_cases hp : startsWith pat (c :: rest) = true
      · rw [if_pos hp] at h
        injection h with h'
        omega
      · rw [if_neg hp] at h
        cases hr : findSub pat rest with
        | none => rw [hr] at h; simp at h
        | some q' =>
          rw [hr] at h
          simp only [Option.map_some'] at h
          injection h with h'
          have hq : q - (s + 1) = q' - s := by omega
          rw [List.drop_succ_cons, hq]
          exact ih hr (by omega)

theorem findSub_drop_none {pat t : List Char} (s : Nat)
    (h : findSub pat t = none) : findSub pat (t.drop s) = none := by
  induction s generalizing t with
  | zero => simpa using h
  | succ s ih =>
    cases t with
    | nil => simpa using h
    | cons c rest =>
      rw [findSub_cons] at h
      by_cases hp : startsWith pat (c :: rest) = true
      · rw [if_pos hp] at h; simp at h
      · rw [if_neg hp] at h
        cases hr : findSub pat rest with
        | some q => rw [hr] at h; simp at h
        | none => rw [List.drop_succ_cons]; exact ih hr

theorem findSub_isOccurrence {pat t : List Char} {q : Nat}
    (h : findSub pat t = some q) : startsWith pat (t.drop q) = true := by
  have h0 := findSub_drop_some q h (le_refl q)
  rw [Nat.sub_self] at h0
  exact startsWith_of_findSub_zero h0

theorem findSub_min {pat t : List Char} {q : Nat}
    (h : findSub pat t = some q) :
    ∀ i, startsWith pat (t.drop i) = true → q ≤ i := by
  intro i hi
  by_contra hlt
  push_neg at hlt
  have hd := findSub_drop_some i h (by omega)
  rw [findSub_of_startsWith hi] at hd
  injection hd with h'
  omega

theorem findSub_none_no_occ {pat t : List Char}
    (h : findSub pat t = none) :
    ∀ i, startsWith pat (t.drop i) = false := by
  intro i
  have hd := findSub_drop_none i h
  cases hx : startsWith pat (t.drop i) with
  | false => rfl
  | true => rw [findSub_of_startsWith hx] at hd; exact absurd hd (by simp)

/-! ## Lemmas about the earliest-header fold (`bsAux`, `bestStart`) -/

theorem bsAux_cons_fnone {t hh : List Char} {hs : List (List Char)}
    (hf : findSub hh t = none) (best : Option Nat) :
    bsAux t (hh :: hs) best = bsAux t hs best := by
  simp only [bsAux, hf]

theorem bsAux_cons_fsome_none {t hh : List Char} {hs : List (List Char)}
    {idx : Nat} (hf : findSub hh t = some idx) :
    bsAux t (hh :: hs) none = bsAux t hs (some idx) := by
  simp only [bsAux, hf]

theorem bsAux_cons_fsome_some {t hh : List Char} {hs : List (List Char)}
    {idx : Nat} (hf : findSub hh t = some idx) (b : Nat) :
    bsAux t (hh :: hs) (some b) =
      bsAux t hs (if idx < b then some idx else some b) := by
  simp only [bsAux, hf]

theorem bsAux_le_acc (t : List Char) (H : List (List Char)) :
    ∀ a : Nat, ∃ b, bsAux t H (some a) = some b ∧ b ≤ a := by
  induction H with
  | nil => intro a; exact ⟨a, rfl, le_refl a⟩
  | cons hh hs ih =>
    intro a
    cases hf : findSub hh t with
    | none => rw [bsAux_cons_fnone hf]; exact ih a
    | some idx =>
      rw [bsAux_cons_fsome_some hf]
      by_cases hlt : idx < a
      · rw [if_pos hlt]
        obtain ⟨b, hb, hba⟩ := ih idx
        exact ⟨b, hb, by omega⟩
      · rw [if_neg hlt]
        exact ih a

theorem bsAux_min (t : List Char) (H : List (List Char)) :
    ∀ acc b, bsAux t H acc = some b →
      ∀ h ∈ H, ∀ q, findSub h t = some q → b ≤ q := by
  induction H with
  | nil => intro acc b _ h hmem; simp at hmem
  | cons hh hs ih =>
    intro acc b hres h hmem q hq
    rcases List.mem_cons.mp hmem with rfl | hmem'
    · cases acc with
      | none =>
        rw [bsAux_cons_fsome_none hq] at hres
        obtain ⟨b', hb', hle⟩ := bsAux_le_acc t hs q
        rw [hres] at hb'
        injection hb' with h'
        omega
      | some a =>
        rw [bsAux_cons_fsome_some hq] at hres
        by_cases hlt : q < a
        · rw [if_pos hlt] at hres
          obtain ⟨b', hb', hle⟩ := bsAux_le_acc t hs q
          rw [hres] at hb'
          injection hb' with h'
          omega
        · rw [if_neg hlt] at hres
          obtain ⟨b', hb', hle⟩ := bsAux_le_acc t hs a
          rw [hres] at hb'
          injection hb' with h'
          omega
    · cases hf : findSub hh t with
      | none =>
        rw [bsAux_cons_fnone hf] at hres
        exact ih _ b hres h hmem' q hq
      | some idx =>
        cases acc with
        | none =>
          rw [bsAux_cons_fsome_none hf] at hres
          exact ih _ b hres h hmem' q hq
        | some a =>
          rw [bsAux_cons_fsome_some hf] at hres
          exact ih _ b hres h hmem' q hq

theorem bsAux_found (t : List Char) (H : List (List Char)) :
    ∀ acc b, bsAux t H acc = some b →
      acc = some b ∨ ∃ h ∈ H, findSub h t = some b := by
  induction H with
  | nil => intro acc b h; exact Or.inl h
  | cons hh hs ih =>
    intro acc b hres
    cases hf : findSub hh t with
    | none =>
      rw [bsAux_cons_fnone hf] at hres
      rcases ih _ b hres with hacc | ⟨h, hm, hfh⟩
      · exact Or.inl hacc
      · exact Or.inr ⟨h, List.mem_cons_of_mem _ hm, hfh⟩
    | some idx =>
      cases acc with
      | none =>
        rw [bsAux_cons_fsome_none hf] at hres
        rcases ih _ b hres with hacc | ⟨h, hm, hfh⟩
        · injection hacc with h'
          exact Or.inr ⟨hh, List.mem_cons_self _ _, by rw [hf, h']⟩
        · exact Or.inr ⟨h, List.mem_cons_of_mem _ hm, hfh⟩
      | some a =>
        rw [bsAux_cons_fsome_some hf] at hres
        by_cases hlt : idx < a
        · rw [if_pos hlt] at hres
          rcases ih _ b hres with hacc | ⟨h, hm, hfh⟩
          · injection hacc with h'
            exact Or.inr ⟨hh, List.mem_cons_self _ _, by rw [hf, h']⟩
          · exact Or.inr ⟨h, List.mem_cons_of_mem _ hm, hfh⟩
        · rw [if_neg hlt] at hres
          rcases ih _ b hres with hacc | ⟨h, hm, hfh⟩
          · exact Or.inl hacc
          · exact Or.inr ⟨h, List.mem_cons_of_mem _ hm, hfh⟩

theorem bsAux_none_case (t : List Char) (H : List (List Char)) :
    ∀ acc, bsAux t H acc = none →
      acc = none ∧ ∀ h ∈ H, findSub h t = none := by
  induction H with
  | nil => intro acc h; exact ⟨h, by simp⟩
  | cons hh hs ih =>
    intro acc hres
    cases hf : findSub hh t with
    | none =>
      rw [bsAux_cons_fnone hf] at hres
      obtain ⟨hacc, hall⟩ := ih _ hres
      refine ⟨hacc, ?_⟩
      intro h hm
      rcases List.mem_cons.mp hm with rfl | hm'
      · exact hf
      · exact hall h hm'
    | some idx =>
      exfalso
      cases acc with
      | none =>
        rw [bsAux_cons_fsome_none hf] at hres
        obtain ⟨b', hb', _⟩ := bsAux_le_acc t hs idx
        rw [hres] at hb'
        exact absurd hb' (by simp)
      | some a =>
        rw [bsAux_cons_fsome_some hf] at hres
        by_cases hlt : idx < a
        · rw [if_pos hlt] at hres
          obtain ⟨b', hb', _⟩ := bsAux_le_acc t hs idx
          rw [hres] at hb'
          exact absurd hb' (by simp)
        · rw [if_neg hlt] at hres
          obtain ⟨b', hb', _⟩ := bsAux_le_acc t hs a
          rw [hres] at hb'
          exact absurd hb' (by simp)

theorem bsAux_all_none {t : List Char} (H : List (List Char))
    (h : ∀ hh ∈ H, findSub hh t = none) : ∀ acc, bsAux t H acc = acc := by
  induction H with
  | nil => intro acc; rfl
  | cons hh hs ih =>
    intro acc
    rw [bsAux_cons_fnone (h hh (List.mem_cons_self _ _))]
    exact ih (fun x hx => h x (List.mem_cons_of_mem _ hx)) acc

/-- Shift relation between an accumulator over `t` and one over `t.drop s`. -/
def OptShift (s : Nat) (x y : Option Nat) : Prop :=
  (x = none ∧ y = none) ∨ ∃ a, x = some a ∧ s ≤ a ∧ y = some (a - s)

theorem bsAux_shift (t : List Char) (s : Nat) (H : List (List Char))
    (Hq : ∀ h ∈ H, ∀ q, findSub h t = some q → s ≤ q) :
    ∀ acc acc', OptShift s acc acc' →
      OptShift s (bsAux t H acc) (bsAux (t.drop s) H acc') := by
  induction H with
  | nil => intro acc acc' h; exact h
  | cons hh hs ih =>
    intro acc acc' hsh
    have Hq' : ∀ h ∈ hs, ∀ q, findSub h t = some q → s ≤ q :=
      fun h hm q hq => Hq h (List.mem_cons_of_mem _ hm) q hq
    cases hf : findSub hh t with
    | none =>
      have hf' : findSub hh (t.drop s) = none := findSub_drop_none s hf
      rw [bsAux_cons_fnone hf, bsAux_cons_fnone hf']
      exact ih Hq' acc acc' hsh
    | some q =>
      have hsq : s ≤ q := Hq hh (List.mem_cons_self _ _) q hf
      have hf' : findSub hh (t.drop s) = some (q - s) :=
        findSub_drop_some s hf hsq
      rcases hsh with ⟨rfl, rfl⟩ | ⟨a, rfl, hsa, rfl⟩
      · rw [bsAux_cons_fsome_none hf, bsAux_cons_fsome_none hf']
        exact ih Hq' _ _ (Or.inr ⟨q, rfl, hsq, rfl⟩)
      · rw [bsAux_cons_fsome_some hf, bsAux_cons_fsome_some hf']
        by_cases hlt : q < a
        · have hlt' : q - s < a - s := by omega
          rw [if_pos hlt, if_pos hlt']
          exact ih Hq' _ _ (Or.inr ⟨q, rfl, hsq, rfl⟩)
        · have hlt' : ¬ q - s < a - s := by omega
          rw [if_neg hlt, if_neg hlt']
          exact ih Hq' _ _ (Or.inr ⟨a, rfl, hsa, rfl⟩)

theorem bestStart_drop {t : List Char} {b : Nat} (s : Nat)
    (h : bestStart t = some b) (hs : s ≤ b) :
    bestStart (t.drop s) = some (b - s) := by
  have Hq : ∀ hh ∈ HEADERS, ∀ q, findSub hh t = some q → s ≤ q := by
    intro hh hm q hq
    exact le_trans hs (bsAux_min t HEADERS none b h hh hm q hq)
  have hsh := bsAux_shift t s HEADERS Hq none none (Or.inl ⟨rfl, rfl⟩)
  rw [bestStart] at h
  rcases hsh with ⟨h1, _⟩ | ⟨a, h1, _, h2⟩
  · rw [h] at h1; exact absurd h1 (by simp)
  · rw [h] at h1
    injection h1 with h1'
    rw [bestStart, h2, h1']

/-! ## Lemmas about `optimize_description` -/

theorem trunc_marker_length : TRUNC_MARKER.length = 18 := by decide

theorem optimize_of_bestStart_some {t : List Char} {b : Nat}
    (ht : t ≠ []) (hb : bestStart t = some b) :
    optimize_description t =
      (if 3000 < (t.drop (b - 500)).length then
        (t.drop (b - 500)).take 3000 ++ TRUNC_MARKER
       else t.drop (b - 500)) := by
  rw [optimize_description, if_neg ht, hb]

theorem optimize_of_bestStart_none {t : List Char}
    (ht : t ≠ []) (hb : bestStart t = none) :
    optimize_description t =
      (if 3000 < t.length then t.take 3000 ++ TRUNC_MARKER else t) := by
  rw [optimize_description, if_neg ht, hb]

theorem optimize_length_le (t : List Char) :
    (optimize_description t).length ≤ 3018 := by
  by_cases ht : t = []
  · subst ht; decide
  · cases hb : bestStart t with
    | some b =>
      rw [optimize_of_bestStart_some ht hb]
      by_cases h3 : 3000 < (t.drop (b - 500)).length
      · rw [if_pos h3]
        rw [List.length_append, List.length_take, trunc_marker_length]
        omega
      · rw [if_neg h3]; omega
    | none =>
      rw [optimize_of_bestStart_none ht hb]
      by_cases h3 : 3000 < t.length
      · rw [if_pos h3]
        rw [List.length_append, List.length_take, trunc_marker_length]
        omega
      · rw [if_neg h3]; omega

theorem findSub_replicate_none {pat : List Char} {c : Char}
    (hne : pat ≠ []) (hh : pat.head? ≠ some c) :
    ∀ n, findSub pat (List.replicate n c) = none := by
  match pat, hne with
  | d :: ps, _ =>
    have hdc : (d == c) = false := by
      simp only [List.head?] at hh
      simp only [beq_eq_false_iff_ne, ne_eq]
      intro h
      exact hh (by rw [h])
    intro n
    induction n with
    | zero => rw [List.replicate_zero, findSub_nil]; rfl
    | succ n ih =>
      rw [List.replicate_succ, findSub_cons]
      have hsw : startsWith (d :: ps) (c :: List.replicate n c) = false := by
        rw [startsWith, hdc, Bool.false_and]
      rw [hsw]
      simp only [Bool.false_eq_true, if_false, ih, Option.map_none']

/-! ## Claims C4 and C9 (the description optimizer) -/

/-- Claim C4 fails as stated: the returned text is NOT bounded by 3000
characters. On 3001 copies of `'x'` (no header occurs), the code truncates
to 3000 characters and then appends the 18-character marker, so the result
has 3018 characters — strictly more than 3000. -/
theorem claim_C4_counterexample :
    3000 < (optimize_description (List.replicate 3001 'x')).length := by
  have hnone : bestStart (List.replicate 3001 'x') = none := by
    rw [bestStart]
    apply bsAux_all_none
    intro hh hm
    have hx : ∀ p ∈ HEADERS, p ≠ [] ∧ p.head? ≠ some 'x' := by decide
    obtain ⟨h1, h2⟩ := hx hh hm
    exact findSub_replicate_none h1 h2 3001
  have hne : List.replicate 3001 'x' ≠ [] :=
    List.length_pos.mp (by rw [List.length_replicate]; omega)
  rw [optimize_of_bestStart_none hne hnone,
      if_pos (by rw [List.length_replicate]; omega),
      List.length_append, List.length_take,
      trunc_marker_length, List.length_replicate]
  omega

/-- Claim C4, amended: the window is selected by the earliest occurrence by
position of any header (leftmost-match-wins), starts `max(0, pos - 500)`
and runs to the end of the text (the whole text when no header occurs);
the window is truncated to 3000 characters with the 18-character marker
appended when it exceeds that bound, so the returned text has at most
3018 characters (not 3000 as the claim states). -/
theorem claim_C4 (t : List Char) :
    ((∃ b, (∃ h ∈ HEADERS, startsWith h (t.drop b) = true)
        ∧ (∀ h ∈ HEADERS, ∀ i, startsWith h (t.drop i) = true → b ≤ i)
        ∧ optimize_description t =
            (if 3000 < (t.drop (b - 500)).length then
              (t.drop (b - 500)).take 3000 ++ TRUNC_MARKER
             else t.drop (b - 500)))
      ∨ ((∀ h ∈ HEADERS, ∀ i, startsWith h (t.drop i) = false)
        ∧ optimize_description t =
            (if 3000 < t.length then t.take 3000 ++ TRUNC_MARKER else t)))
    ∧ (optimize_description t).length ≤ 3018 := by
  refine ⟨?_, optimize_length_le t⟩
  by_cases ht : t = []
  · subst ht
    refine Or.inr ⟨?_, by decide⟩
    intro h hm i
    rw [List.drop_nil]
    have hx : ∀ p ∈ HEADERS, startsWith p [] = false := by decide
    exact hx h hm
  · cases hb : bestStart t with
    | some b =>
      refine Or.inl ⟨b, ?_, ?_, optimize_of_bestStart_some ht hb⟩
      · rcases bsAux_found t HEADERS none b hb with hacc | ⟨h, hm, hf⟩
        · exact absurd hacc (by simp)
        · exact ⟨h, hm, findSub_isOccurrence hf⟩
      · intro h hm i hocc
        cases hf : findSub h t with
        | none => rw [findSub_none_no_occ hf i] at hocc; exact absurd hocc (by simp)
        | some q =>
          have hbq := bsAux_min t HEADERS none b hb h hm q hf
          have hqi := findSub_min hf i hocc
          omega
    | none =>
      obtain ⟨_, hall⟩ := bsAux_none_case t HEADERS none hb
      refine Or.inr ⟨?_, optimize_of_bestStart_none ht hb⟩
      intro h hm i
      exact findSub_none_no_occ (hall h hm) i

/-- Claim C9: the optimizer is idempotent on its own outputs of at most
3000 characters (exactly the non-truncated outputs). -/
theorem claim_C9 (t : List Char)
    (hlen : (optimize_description t).length ≤ 3000) :
    optimize_description (optimize_description t) = optimize_description t := by
  by_cases ht : t = []
  · subst ht; rfl
  · cases hb : bestStart t with
    | none =>
      by_cases h3 : 3000 < t.length
      · exfalso
        rw [optimize_of_bestStart_none ht hb, if_pos h3,
            List.length_append, List.length_take, trunc_marker_length] at hlen
        omega
      · have hy : optimize_description t = t := by
          rw [optimize_of_bestStart_none ht hb, if_neg h3]
        rw [hy, hy]
    | some b =>
      have hb500 : b - 500 ≤ b := Nat.sub_le b 500
      by_cases h3 : 3000 < (t.drop (b - 500)).length
      · exfalso
        rw [optimize_of_bestStart_some ht hb, if_pos h3,
            List.length_append, List.length_take, trunc_marker_length] at hlen
        omega
      · have hy : optimize_description t = t.drop (b - 500) := by
          rw [optimize_of_bestStart_some ht hb, if_neg h3]
        rw [hy]
        by_cases hys : t.drop (b - 500) = []
        · rw [hys]; decide
        · have hb' : bestStart (t.drop (b - 500)) = some (b - (b - 500)) :=
            bestStart_drop (b - 500) hb hb500
          have hz : (b - (b - 500)) - 500 = 0 := by omega
          rw [optimize_of_bestStart_some hys hb', hz, List.drop_zero,
              if_neg h3]

theorem claim_C9_witness :
    (optimize_description "Requirements: none".toList).length ≤ 3000
    ∧ optimize_description (optimize_description "Requirements: none".toList)
        = optimize_description "Requirements: none".toList :=
  ⟨by decide, claim_C9 "Requirements: none".toList (by decide)⟩

theorem claim_C4_witness :
    (optimize_description "Skills: Lean".toList).length ≤ 3018 :=
  (claim_C4 "Skills: Lean".toList).2

/-! ## Claim C3 (fail-closed classification) -/

/-- Claim C3: `analyze_job` returns `false` — and, being a total function
into `Bool`, propagates no exception — whenever no classification client
is configured, the service call raises, the (fence-stripped) reply is not
valid JSON, or the parsed reply lacks a `match` field (including the case
where the parsed value is not an object at all, so `.get` raises inside
the caught region). -/
theorem claim_C3 :
    (∀ loads, analyze_job none loads = false)
    ∧ (∀ c loads, c.reply = PyResult.exn → analyze_job (some c) loads = false)
    ∧ (∀ c loads raw, c.reply = PyResult.ok raw →
        loads (cleanReply raw) = PyResult.exn →
        analyze_job (some c) loads = false)
    ∧ (∀ c loads raw v, c.reply = PyResult.ok raw →
        loads (cleanReply raw) = PyResult.ok v →
        (dictGet v "match".toList = PyResult.exn
          ∨ dictGet v "match".toList = PyResult.ok none) →
        analyze_job (some c) loads = false) := by
  refine ⟨fun loads => rfl, ?_, ?_, ?_⟩
  · intro c loads h
    simp only [analyze_job, h]
  · intro c loads raw h1 h2
    simp only [analyze_job, h1, h2]
  · intro c loads raw v h1 h2 hd
    rcases hd with hd | hd <;> simp only [analyze_job, h1, h2, hd]

theorem claim_C3_witness :
    analyze_job none (fun _ => PyResult.exn) = false
    ∧ analyze_job (some ⟨PyResult.ok "nope".toList⟩)
        (fun _ => PyResult.exn) = false
    ∧ analyze_job (some ⟨PyResult.ok "[1]".toList⟩)
        (fun _ => PyResult.ok (JVal.jarr [JVal.jnum 1])) = false :=
  ⟨claim_C3.1 (fun _ => PyResult.exn),
   claim_C3.2.2.1 ⟨PyResult.ok "nope".toList⟩ (fun _ => PyResult.exn)
     "nope".toList rfl rfl,
   claim_C3.2.2.2 ⟨PyResult.ok "[1]".toList⟩
     (fun _ => PyResult.ok (JVal.jarr [JVal.jnum 1])) "[1]".toList
     (JVal.jarr [JVal.jnum 1]) rfl rfl (Or.inl rfl)⟩

/-! ## Claim C5 (exclusion filter) -/

/-- Claim C5: `is_excluded_title` is case-insensitive (it depends only on
the lowercased title), allow-exceptions always take precedence over the
exclusion patterns, and the three cited titles behave as stated. -/
theorem claim_C5 :
    (∀ s t : List Char, s.map Char.toLower = t.map Char.toLower →
        is_excluded_title s = is_excluded_title t)
    ∧ (∀ t : List Char,
        (∃ e ∈ ALLOWED_EXCEPTIONS, containsSub e (t.map Char.toLower) = true) →
        is_excluded_title t = false)
    ∧ is_excluded_title "Senior Data Annotator".toList = true
    ∧ is_excluded_title "Product Manager - Generalist".toList = false
    ∧ is_excluded_title "Generalist Associate".toList = false := by
  refine ⟨?_, ?_, by decide, by decide, by decide⟩
  · intro s t h
    simp only [is_excluded_title]
    rw [h]
  · intro t he
    simp only [is_excluded_title]
    rw [if_pos (List.any_eq_true.mpr he)]

theorem claim_C5_witness :
    is_excluded_title "PRODUCT MANAGER".toList
      = is_excluded_title "product manager".toList
    ∧ is_excluded_title "Community Manager (Remote)".toList = false :=
  ⟨claim_C5.1 "PRODUCT MANAGER".toList "product manager".toList (by decide),
   claim_C5.2.1 "Community Manager (Remote)".toList
     ⟨"community manager".toList, by decide, by decide⟩⟩

/-! ## Step and fold lemmas for the Phase-2 loop -/

theorem procStep_fetched (history : List (List Char)) (beh : Beh)
    (st : RunState) (job : Job) :
    (procStep history beh st job).fetched = st.fetched ++ [job.id] := by
  cases h : beh.nav job.id <;> simp only [procStep, h]

theorem procStep_processed_fail {history : List (List Char)} {beh : Beh}
    {st : RunState} {job : Job} (h : beh.nav job.id = NavResult.navFail) :
    (procStep history beh st job).processed = st.processed := by
  simp only [procStep, h]

theorem procStep_processed_ok {history : List (List Char)} {beh : Beh}
    {st : RunState} {job : Job} {jl : Option (List Char)} {pt : List Char}
    (h : beh.nav job.id = NavResult.navOk jl pt) :
    (procStep history beh st job).processed = st.processed ++ [job.id] := by
  simp only [procStep, h]

theorem procStep_classified_fail {history : List (List Char)} {beh : Beh}
    {st : RunState} {job : Job} (h : beh.nav job.id = NavResult.navFail) :
    (procStep history beh st job).classified = st.classified := by
  simp only [procStep, h]

theorem procStep_classified_ok {history : List (List Char)} {beh : Beh}
    {st : RunState} {job : Job} {jl : Option (List Char)} {pt : List Char}
    (h : beh.nav job.id = NavResult.navOk jl pt) :
    (procStep history beh st job).classified =
      if beh.hasClient = true then st.classified ++ [job.id]
      else st.classified := by
  simp only [procStep, h]

theorem procStep_saves_fail {history : List (List Char)} {beh : Beh}
    {st : RunState} {job : Job} (h : beh.nav job.id = NavResult.navFail) :
    (procStep history beh st job).saves = st.saves := by
  simp only [procStep, h]

theorem procStep_saves_ok {history : List (List Char)} {beh : Beh}
    {st : RunState} {job : Job} {jl : Option (List Char)} {pt : List Char}
    (h : beh.nav job.id = NavResult.navOk jl pt) :
    (procStep history beh st job).saves =
      if (st.processed ++ [job.id]).length % 5 = 0
      then st.saves ++ [history ++ (st.processed ++ [job.id])]
      else st.saves := by
  simp only [procStep, h]

theorem foldl_fetched_mono (history : List (List Char)) (beh : Beh) :
    ∀ (js : List Job) (st : RunState) (x : List Char), x ∈ st.fetched →
      x ∈ (js.foldl (procStep history beh) st).fetched := by
  intro js
  induction js with
  | nil => intro st x hx; exact hx
  | cons j0 js ih =>
    intro st x hx
    rw [List.foldl_cons]
    apply ih
    rw [procStep_fetched]
    exact List.mem_append_left _ hx

theorem foldl_fetched_all (history : List (List Char)) (beh : Beh) :
    ∀ (js : List Job) (st : RunState) (j : Job), j ∈ js →
      j.id ∈ (js.foldl (procStep history beh) st).fetched := by
  intro js
  induction js with
  | nil => intro st j hj; simp at hj
  | cons j0 js ih =>
    intro st j hj
    rw [List.foldl_cons]
    rcases List.mem_cons.mp hj with rfl | hj'
    · apply foldl_fetched_mono
      rw [procStep_fetched]
      exact List.mem_append_right _ (by simp)
    · exact ih _ j hj'

theorem foldl_fetched_sub (history : List (List Char)) (beh : Beh) :
    ∀ (js : List Job) (st : RunState) (x : List Char),
      x ∈ (js.foldl (procStep history beh) st).fetched →
      x ∈ st.fetched ∨ ∃ j ∈ js, j.id = x := by
  intro js
  induction js with
  | nil => intro st x hx; exact Or.inl hx
  | cons j0 js ih =>
    intro st x hx
    rw [List.foldl_cons] at hx
    rcases ih _ x hx with hst | ⟨j, hj, hjx⟩
    · rw [procStep_fetched] at hst
      rcases List.mem_append.mp hst with h1 | h1
      · exact Or.inl h1
      · exact Or.inr ⟨j0, List.mem_cons_self _ _, (List.mem_singleton.mp h1).symm⟩
    · exact Or.inr ⟨j, List.mem_cons_of_mem _ hj, hjx⟩

theorem foldl_processed_eq (history : List (List Char)) (beh : Beh) :
    ∀ (js : List Job) (st : RunState),
      (js.foldl (procStep history beh) st).processed
        = st.processed
          ++ (js.filter (fun j => !(beh.nav j.id).fails)).map (fun j => j.id) := by
  intro js
  induction js with
  | nil => intro st; simp
  | cons j0 js ih =>
    intro st
    rw [List.foldl_cons, List.filter_cons]
    cases h : beh.nav j0.id with
    | navFail =>
      rw [ih, procStep_processed_fail h]
      simp [h, NavResult.fails]
    | navOk jl pt =>
      rw [ih, procStep_processed_ok h]
      simp [h, NavResult.fails, List.append_assoc]

theorem foldl_classified_sub (history : List (List Char)) (beh : Beh) :
    ∀ (js : List Job) (st : RunState) (x : List Char),
      x ∈ (js.foldl (procStep history beh) st).classified →
      x ∈ st.classified ∨ ∃ j ∈ js, j.id = x ∧ (beh.nav j.id).fails = false := by
  intro js
  induction js with
  | nil => intro st x hx; exact Or.inl hx
  | cons j0 js ih =>
    intro st x hx
    rw [List.foldl_cons] at hx
    rcases ih _ x hx with hst | ⟨j, hj, hjx, hjf⟩
    · cases h : beh.nav j0.id with
      | navFail =>
        rw [procStep_classified_fail h] at hst
        exact Or.inl hst
      | navOk jl pt =>
        rw [procStep_classified_ok h] at hst
        by_cases hc : beh.hasClient = true
        · rw [if_pos hc] at hst
          rcases List.mem_append.mp hst with h1 | h1
          · exact Or.inl h1
          · refine Or.inr ⟨j0, List.mem_cons_self _ _,
              (List.mem_singleton.mp h1).symm, ?_⟩
            rw [h]; rfl
        · rw [if_neg hc] at hst
          exact Or.inl hst
    · exact Or.inr ⟨j, List.mem_cons_of_mem _ hj, hjx, hjf⟩

theorem foldl_saves_mono (history : List (List Char)) (beh : Beh) :
    ∀ (js : List Job) (st : RunState) (x : List (List Char)), x ∈ st.saves →
      x ∈ (js.foldl (procStep history beh) st).saves := by
  intro js
  induction js with
  | nil => intro st x hx; exact hx
  | cons j0 js ih =>
    intro st x hx
    rw [List.foldl_cons]
    apply ih
    cases h : beh.nav j0.id with
    | navFail => rw [procStep_saves_fail h]; exact hx
    | navOk jl pt =>
      rw [procStep_saves_ok h]
      by_cases h5 : (st.processed ++ [j0.id]).length % 5 = 0
      · rw [if_pos h5]; exact List.mem_append_left _ hx
      · rw [if_neg h5]; exact hx

/-- The checkpoint invariant: every multiple-of-5 prefix of `processed`
has already been written by a `save_history` call. -/
def SavesInv (history : List (List Char)) (st : RunState) : Prop :=
  ∀ n, 0 < n → n % 5 = 0 → n ≤ st.processed.length →
    (history ++ st.processed.take n) ∈ st.saves

theorem procStep_saves_inv (history : List (List Char)) (beh : Beh)
    (st : RunState) (job : Job) (h : SavesInv history st) :
    SavesInv history (procStep history beh st job) := by
  intro n hn h5 hlen
  cases hnav : beh.nav job.id with
  | navFail =>
    rw [procStep_saves_fail hnav]
    rw [procStep_processed_fail hnav] at hlen ⊢
    exact h n hn h5 hlen
  | navOk jl pt =>
    rw [procStep_saves_ok hnav]
    rw [procStep_processed_ok hnav] at hlen ⊢
    rw [List.length_append, List.length_cons, List.length_nil] at hlen
    by_cases hle : n ≤ st.processed.length
    · rw [List.take_append_of_le_length hle]
      by_cases hq : (st.processed ++ [job.id]).length % 5 = 0
      · rw [if_pos hq]
        exact List.mem_append_left _ (h n hn h5 hle)
      · rw [if_neg hq]
        exact h n hn h5 hle
    · have hn' : n = st.processed.length + 1 := by omega
      have hq : (st.processed ++ [job.id]).length % 5 = 0 := by
        rw [List.length_append, List.length_cons, List.length_nil]
        omega
      rw [if_pos hq]
      have : (st.processed ++ [job.id]).take n = st.processed ++ [job.id] := by
        have hlen' : (st.processed ++ [job.id]).length = n := by
          rw [List.length_append, List.length_cons, List.length_nil]
          omega
        rw [← hlen']
        exact List.take_length _
      rw [this]
      exact List.mem_append_right _ (by simp)

theorem foldl_saves_inv (history : List (List Char)) (beh : Beh) :
    ∀ (js : List Job) (st : RunState), SavesInv history st →
      SavesInv history (js.foldl (procStep history beh) st) := by
  intro js
  induction js with
  | nil => intro st h; exact h
  | cons j0 js ih =>
    intro st h
    rw [List.foldl_cons]
    exact ih _ (procStep_saves_inv history beh st j0 h)

/-- After the most recent multiple-of-5 success, the last `save_history`
write is exactly `history + processed_ids`. -/
def LastSaveInv (history : List (List Char)) (st : RunState) : Prop :=
  0 < st.processed.length → st.processed.length % 5 = 0 →
    st.saves.getLast? = some (history ++ st.processed)

theorem procStep_last_save_inv (history : List (List Char)) (beh : Beh)
    (st : RunState) (job : Job) (h : LastSaveInv history st) :
    LastSaveInv history (procStep history beh st job) := by
  intro hpos h5
  cases hnav : beh.nav job.id with
  | navFail =>
    rw [procStep_saves_fail hnav]
    rw [procStep_processed_fail hnav] at hpos h5 ⊢
    exact h hpos h5
  | navOk jl pt =>
    rw [procStep_saves_ok hnav]
    rw [procStep_processed_ok hnav] at hpos h5 ⊢
    rw [if_pos h5]
    exact List.getLast?_concat _

theorem foldl_last_save_inv (history : List (List Char)) (beh : Beh) :
    ∀ (js : List Job) (st : RunState), LastSaveInv history st →
      LastSaveInv history (js.foldl (procStep history beh) st) := by
  intro js
  induction js with
  | nil => intro st h; exact h
  | cons j0 js ih =>
    intro st h
    rw [List.foldl_cons]
    exact ih _ (procStep_last_save_inv history beh st j0 h)

theorem newJobs_not_mem_history (history : List (List Char))
    (jobs : List Job) : ∀ j ∈ newJobs history jobs, j.id ∉ history := by
  intro j hj
  have := (List.mem_filter.mp hj).2
  simpa using this

/-- Core of claim C1: an id already in the loaded history is never
detail-fetched, never classified, and never recorded by Phase 2. -/
theorem phase2_skips_mem (history : List (List Char)) (jobs : List Job)
    (beh : Beh) (i : List Char) (hi : i ∈ history) :
    i ∉ (phase2 history jobs beh).fetched
    ∧ i ∉ (phase2 history jobs beh).classified
    ∧ i ∉ (phase2 history jobs beh).processed := by
  refine ⟨?_, ?_, ?_⟩
  · intro hmem
    rcases foldl_fetched_sub history beh (newJobs history jobs) initState i
        hmem with h0 | ⟨j, hj, hjx⟩
    · simp [initState] at h0
    · exact newJobs_not_mem_history history jobs j hj (hjx ▸ hi)
  · intro hmem
    rcases foldl_classified_sub history beh (newJobs history jobs) initState i
        hmem with h0 | ⟨j, hj, hjx, _⟩
    · simp [initState] at h0
    · exact newJobs_not_mem_history history jobs j hj (hjx ▸ hi)
  · intro hmem
    have := foldl_processed_eq history beh (newJobs history jobs) initState
    rw [show (phase2 history jobs beh).processed
          = (loopState history jobs beh).processed from rfl, loopState,
        this] at hmem
    simp only [initState, List.nil_append] at hmem
    rcases List.mem_map.mp hmem with ⟨j, hj, hjx⟩
    exact newJobs_not_mem_history history jobs j
      (List.mem_of_mem_filter hj) (hjx ▸ hi)

/-! ## Concrete fixtures for witnesses and counterexamples -/

/-- A sample posting. -/
def cJob : Job :=
  { id := "list_a1".toList, title := "Annotator".toList,
    url := "https://work.mercor.com/jobs/list_a1".toList }

/-- Behaviour where every detail fetch succeeds with plain page text, a
classification client exists, and nothing matches. -/
def cBehOk : Beh :=
  { nav := fun _ => NavResult.navOk none "plain job text".toList,
    hasClient := true, classify := fun _ => false }

/-- Behaviour where every detail fetch raises (`page.goto` failure). -/
def cBehFail : Beh :=
  { nav := fun _ => NavResult.navFail, hasClient := false,
    classify := fun _ => false }

/-- Five postings with distinct ids. -/
def cJobs5 : List Job :=
  [⟨"list_a1".toList, "T1".toList, "u1".toList, []⟩,
   ⟨"list_b2".toList, "T2".toList, "u2".toList, []⟩,
   ⟨"list_c3".toList, "T3".toList, "u3".toList, []⟩,
   ⟨"list_d4".toList, "T4".toList, "u4".toList, []⟩,
   ⟨"list_e5".toList, "T5".toList, "u5".toList, []⟩]

/-! ## Claim C1 (ledger dedup) -/

/-- Claim C1: an id already present in the loaded ledger is never
detail-fetched, classified, or re-recorded in the current run; and any id
present in the ledger a completed run persists is not processed by a later
run that loads that ledger (so a recorded id is processed at most once
across runs). -/
theorem claim_C1 (history : List (List Char)) (jobs : List Job) (beh : Beh)
    (i : List Char) (hi : i ∈ history) :
    (i ∉ (phase2 history jobs beh).fetched
      ∧ i ∉ (phase2 history jobs beh).classified
      ∧ i ∉ (phase2 history jobs beh).processed)
    ∧ (∀ (i2 : List Char) (jobs2 : List Job) (beh2 : Beh),
        i2 ∈ (phase2 history jobs beh).savedFinal →
        i2 ∉ (phase2 (phase2 history jobs beh).savedFinal jobs2 beh2).fetched
        ∧ i2 ∉ (phase2 (phase2 history jobs beh).savedFinal jobs2 beh2).classified
        ∧ i2 ∉ (phase2 (phase2 history jobs beh).savedFinal jobs2 beh2).processed) :=
  ⟨phase2_skips_mem history jobs beh i hi,
   fun i2 jobs2 beh2 hi2 => phase2_skips_mem _ jobs2 beh2 i2 hi2⟩

theorem claim_C1_witness :
    "list_a1".toList ∉ (phase2 ["list_a1".toList] [cJob] cBehOk).fetched
    ∧ "list_a1".toList ∉ (phase2 ["list_a1".toList] [cJob] cBehOk).classified
    ∧ "list_a1".toList ∉ (phase2 ["list_a1".toList] [cJob] cBehOk).processed :=
  (claim_C1 ["list_a1".toList] [cJob] cBehOk "list_a1".toList (by decide)).1

/-! ## Claim C2 (per-posting failure handling) -/

/-- Claim C2 fails as stated: with a behaviour whose detail fetch raises
(a navigation error), the posting's id is NOT written to the ledger —
`processed_ids.append(job.id)` sits inside the per-posting `try` after
`page.goto` — and the same posting IS fetched again by a second run that
loads the persisted ledger, contradicting "its id is still written … so
the posting is not retried in a future run". -/
theorem claim_C2_counterexample :
    cJob.id ∈ (phase2 [] [cJob] cBehFail).fetched
    ∧ cJob.id ∉ (phase2 [] [cJob] cBehFail).processed
    ∧ cJob.id ∉ (phase2 [] [cJob] cBehFail).savedFinal
    ∧ cJob.id ∈
        (phase2 (phase2 [] [cJob] cBehFail).savedFinal [cJob] cBehFail).fetched
    := by decide

/-- Claim C2, amended: a per-posting failure is caught individually and the
run continues — `processed_ids` ends up being exactly the ids of the
successfully fetched new postings, in order — but a posting whose detail
fetch raises is skipped: it is never classified, its id is NOT written to
the ledger (the final save contains it iff the prior history did), and it
is selected again by a future run that loads the persisted ledger. -/
theorem claim_C2 (history : List (List Char)) (jobs : List Job) (beh : Beh) :
    (phase2 history jobs beh).processed
      = ((newJobs history jobs).filter
          (fun j => !(beh.nav j.id).fails)).map (fun j => j.id)
    ∧ ∀ j ∈ newJobs history jobs, (beh.nav j.id).fails = true →
        j.id ∈ (phase2 history jobs beh).fetched
        ∧ j.id ∉ (phase2 history jobs beh).processed
        ∧ j.id ∉ (phase2 history jobs beh).classified
        ∧ (j.id ∈ (phase2 history jobs beh).savedFinal ↔ j.id ∈ history)
        ∧ (j.id ∉ history →
            ∃ j2 ∈ newJobs (phase2 history jobs beh).savedFinal jobs,
              j2.id = j.id) := by
  have hproc : (phase2 history jobs beh).processed
      = ((newJobs history jobs).filter
          (fun j => !(beh.nav j.id).fails)).map (fun j => j.id) := by
    show (loopState history jobs beh).processed = _
    rw [loopState, foldl_processed_eq history beh (newJobs history jobs)
        initState]
    simp [initState]
  refine ⟨hproc, ?_⟩
  intro j hj hf
  have hfetch : j.id ∈ (phase2 history jobs beh).fetched :=
    foldl_fetched_all history beh (newJobs history jobs) initState j hj
  have hnp : j.id ∉ (phase2 history jobs beh).processed := by
    rw [hproc]
    intro hmem
    rcases List.mem_map.mp hmem with ⟨j2, hj2, hid⟩
    have h2 := (List.mem_filter.mp hj2).2
    rw [hid, hf] at h2
    simp at h2
  have hnc : j.id ∉ (phase2 history jobs beh).classified := by
    intro hmem
    rcases foldl_classified_sub history beh (newJobs history jobs) initState
        j.id hmem with h0 | ⟨j2, _, hid, hff⟩
    · simp [initState] at h0
    · rw [hid, hf] at hff
      exact absurd hff (by simp)
  have hsf : j.id ∈ (phase2 history jobs beh).savedFinal ↔ j.id ∈ history := by
    constructor
    · intro hmem
      rcases List.mem_append.mp hmem with h1 | h1
      · exact h1
      · exact absurd h1 hnp
    · intro h1
      exact List.mem_append_left _ h1
  refine ⟨hfetch, hnp, hnc, hsf, ?_⟩
  intro hnh
  refine ⟨j, ?_, rfl⟩
  refine List.mem_filter.mpr ⟨List.mem_of_mem_filter hj, ?_⟩
  simp only [decide_eq_true_eq]
  intro hmem
  exact hnh (hsf.mp hmem)

theorem claim_C2_witness :
    cJob.id ∈ (phase2 [] [cJob] cBehFail).fetched
    ∧ cJob.id ∉ (phase2 [] [cJob] cBehFail).processed
    ∧ cJob.id ∉ (phase2 [] [cJob] cBehFail).classified
    ∧ (cJob.id ∈ (phase2 [] [cJob] cBehFail).savedFinal
        ↔ cJob.id ∈ ([] : List (List Char)))
    ∧ (cJob.id ∉ ([] : List (List Char)) →
        ∃ j2 ∈ newJobs (phase2 [] [cJob] cBehFail).savedFinal [cJob],
          j2.id = cJob.id) :=
  (claim_C2 [] [cJob] cBehFail).2 cJob (by decide) (by decide)

/-! ## Claim C6 (checkpoint cadence) -/

/-- Claim C6: whenever the count of processed postings reaches a positive
multiple of 5, a `save_history` write containing the prior history plus
all ids processed so far has been performed; when exactly 5 postings have
been processed the most recent write is `history + processed_ids`; and
every write performed by a partial (crashed) run is also performed by the
completed run — so a crash while processing the 6th posting loses at most
the unflushed tail and all 5 checkpointed ids survive. -/
theorem claim_C6 (history : List (List Char)) (jobs : List Job) (beh : Beh)
    (m : Nat) :
    (∀ n, 0 < n → n % 5 = 0 →
        n ≤ (phase2Upto history jobs beh m).processed.length →
        (history ++ (phase2Upto history jobs beh m).processed.take n)
          ∈ (phase2Upto history jobs beh m).saves)
    ∧ ((phase2Upto history jobs beh m).processed.length = 5 →
        (phase2Upto history jobs beh m).saves.getLast?
          = some (history ++ (phase2Upto history jobs beh m).processed))
    ∧ (∀ x ∈ (phase2Upto history jobs beh m).saves,
        x ∈ (phase2 history jobs beh).saves) := by
  refine ⟨?_, ?_, ?_⟩
  · show SavesInv history (phase2Upto history jobs beh m)
    apply foldl_saves_inv
    intro n hn h5 hlen
    simp only [initState, List.length_nil] at hlen
    omega
  · intro h5
    have hinv : LastSaveInv history (phase2Upto history jobs beh m) := by
      apply foldl_last_save_inv
      intro hpos _
      simp [initState] at hpos
    exact hinv (by rw [h5]; omega) (by rw [h5])
  · intro x hx
    show x ∈ (loopState history jobs beh).saves
        ++ [history ++ (loopState history jobs beh).processed]
    apply List.mem_append_left
    rw [loopState, ← List.take_append_drop m (newJobs history jobs),
        List.foldl_append]
    exact foldl_saves_mono history beh ((newJobs history jobs).drop m) _ x hx

theorem claim_C6_witness :
    5 ≤ (phase2Upto [] cJobs5 cBehOk 5).processed.length
    ∧ ([] ++ (phase2Upto [] cJobs5 cBehOk 5).processed.take 5)
        ∈ (phase2Upto [] cJobs5 cBehOk 5).saves :=
  ⟨by decide, (claim_C6 [] cJobs5 cBehOk 5).1 5 (by decide) (by decide)
    (by decide)⟩

/-! ## Claim C7 (notification handoff) -/

/-- Claim C7 fails as stated: a run that completes discovery and processing
with an empty match list performs ZERO notification handoffs, not one —
bot.py line 373 guards `send_email(matches)` with `if matches:`. Here a
posting is fully processed, no match is found, and no handoff happens. -/
theorem claim_C7_counterexample :
    (phase2 [] [cJob] cBehOk).processed = [cJob.id]
    ∧ (phase2 [] [cJob] cBehOk).matchList = []
    ∧ (phase2 [] [cJob] cBehOk).emailCalls = [] := by decide

/-- Claim C7, amended: a completed run hands the final match list to the
notification collaborator exactly once when the list is non-empty; when
the match list is empty the collaborator is not invoked at all. -/
theorem claim_C7 (history : List (List Char)) (jobs : List Job) (beh : Beh) :
    ((phase2 history jobs beh).matchList = [] →
      (phase2 history jobs beh).emailCalls = [])
    ∧ ((phase2 history jobs beh).matchList ≠ [] →
      (phase2 history jobs beh).emailCalls
        = [(phase2 history jobs beh).matchList]) := by
  constructor
  · intro h
    have h' : (loopState history jobs beh).matchList = [] := h
    show (if (loopState history jobs beh).matchList.isEmpty then []
          else [(loopState history jobs beh).matchList]) = []
    rw [h']
    rfl
  · intro h
    have h' : (loopState history jobs beh).matchList ≠ [] := h
    show (if (loopState history jobs beh).matchList.isEmpty then []
          else [(loopState history jobs beh).matchList])
        = [(loopState history jobs beh).matchList]
    cases hm : (loopState history jobs beh).matchList with
    | nil => exact absurd hm h'
    | cons a l => rfl

theorem claim_C7_witness :
    (phase2 [] [cJob] cBehOk).emailCalls = [] :=
  (claim_C7 [] [cJob] cBehOk).1 (by decide)

/-! ## Lemmas for the pagination loop -/

theorem pagLoop_succ (render : Nat → PageView) (fuel pageNo : Nat)
    (st : PagState) :
    pagLoop render (fuel + 1) pageNo st =
      if nextOk (render pageNo) = true then
        pagLoop render fuel (pageNo + 1)
          { jobs := st.jobs ++ extractJobs (render pageNo).links,
            pages := st.pages + 1 }
      else
        { jobs := st.jobs ++ extractJobs (render pageNo).links,
          pages := st.pages + 1 } := by
  simp only [pagLoop]

theorem pagLoop_pages_le (render : Nat → PageView) :
    ∀ (fuel pageNo : Nat) (st : PagState),
      (pagLoop render fuel pageNo st).pages ≤ st.pages + fuel := by
  intro fuel
  induction fuel with
  | zero => intro pageNo st; rw [pagLoop]; omega
  | succ fuel ih =>
    intro pageNo st
    rw [pagLoop_succ]
    by_cases h : nextOk (render pageNo) = true
    · rw [if_pos h]
      have hstep : (pagLoop render fuel (pageNo + 1)
          { jobs := st.jobs ++ extractJobs (render pageNo).links,
            pages := st.pages + 1 }).pages ≤ st.pages + 1 + fuel :=
        ih (pageNo + 1)
          { jobs := st.jobs ++ extractJobs (render pageNo).links,
            pages := st.pages + 1 }
      exact le_trans hstep (by omega)
    · rw [if_neg h]
      show st.pages + 1 ≤ st.pages + (fuel + 1)
      omega

theorem pagLoop_jobs_mem (render : Nat → PageView) :
    ∀ (fuel pageNo : Nat) (st : PagState) (j : Job),
      j ∈ (pagLoop render fuel pageNo st).jobs →
      j ∈ st.jobs ∨ ∃ p, j ∈ extractJobs (render p).links := by
  intro fuel
  induction fuel with
  | zero => intro pageNo st j hj; exact Or.inl hj
  | succ fuel ih =>
    intro pageNo st j hj
    rw [pagLoop_succ] at hj
    by_cases h : nextOk (render pageNo) = true
    · rw [if_pos h] at hj
      rcases ih _ _ j hj with hst | hex
      · rcases List.mem_append.mp hst with h1 | h1
        · exact Or.inl h1
        · exact Or.inr ⟨pageNo, h1⟩
      · exact Or.inr hex
    · rw [if_neg h] at hj
      rcases List.mem_append.mp hj with h1 | h1
      · exact Or.inl h1
      · exact Or.inr ⟨pageNo, h1⟩

theorem keepJob_eq_some {l : RawLink} {j : Job} (h : keepJob l = some j) :
    parseLink l = some j ∧ is_excluded_title j.title = false := by
  rw [keepJob] at h
  rcases Option.bind_eq_some.mp h with ⟨a, ha, hf⟩
  by_cases he : is_excluded_title a.title = true
  · rw [if_pos he] at hf
    exact absurd hf (by simp)
  · rw [if_neg he] at hf
    injection hf with h'
    subst h'
    exact ⟨ha, Bool.eq_false_iff.mpr he⟩

theorem extractJobs_mem {links : List RawLink} {j : Job}
    (h : j ∈ extractJobs links) :
    ∃ l ∈ links, parseLink l = some j
      ∧ is_excluded_title j.title = false := by
  rcases List.mem_filterMap.mp h with ⟨l, hl, hfl⟩
  obtain ⟨hp, he⟩ := keepJob_eq_some hfl
  exact ⟨l, hl, hp, he⟩

theorem upsert_id_sub (acc : List Job) (j : Job) :
    ∀ x ∈ upsert acc j, (∃ a ∈ acc, x.id = a.id) ∨ x.id = j.id := by
  intro x hx
  rw [upsert] at hx
  by_cases hany : acc.any (fun a => a.id == j.id) = true
  · rw [if_pos hany] at hx
    rcases List.mem_map.mp hx with ⟨a, ha, hax⟩
    by_cases hid : a.id = j.id
    · rw [if_pos hid] at hax
      subst hax
      exact Or.inr rfl
    · rw [if_neg hid] at hax
      subst hax
      exact Or.inl ⟨a, ha, rfl⟩
  · rw [if_neg hany] at hx
    rcases List.mem_append.mp hx with h1 | h1
    · exact Or.inl ⟨x, h1, rfl⟩
    · rw [List.mem_singleton.mp h1]
      exact Or.inr rfl

theorem dedup_id_sub (jobs : List Job) :
    ∀ x ∈ dedupById jobs, ∃ j ∈ jobs, x.id = j.id := by
  suffices h : ∀ (js : List Job) (acc : List Job) (x : Job),
      x ∈ js.foldl upsert acc →
      (∃ a ∈ acc, x.id = a.id) ∨ ∃ j ∈ js, x.id = j.id by
    intro x hx
    rcases h jobs [] x hx with ⟨a, ha, _⟩ | hj
    · simp at ha
    · exact hj
  intro js
  induction js with
  | nil => intro acc x hx; exact Or.inl ⟨x, hx, rfl⟩
  | cons j0 js ih =>
    intro acc x hx
    rw [List.foldl_cons] at hx
    rcases ih _ x hx with ⟨a, ha, hxa⟩ | ⟨j, hj, hxj⟩
    · rcases upsert_id_sub acc j0 a ha with ⟨a2, ha2, haa⟩ | hji
      · exact Or.inl ⟨a2, ha2, by rw [hxa, haa]⟩
      · exact Or.inr ⟨j0, List.mem_cons_self _ _, by rw [hxa, hji]⟩
    · exact Or.inr ⟨j, List.mem_cons_of_mem _ hj, hxj⟩

/-! ## Claim C8 (pagination termination) -/

/-- Claim C8: pagination extracts at most `max_pages = 5` listing pages for
any renderer behaviour; and when the next-button check succeeds on pages 1
and 2 but fails on page 3 (absent, not visible, disabled, or the locator
raises), traversal yields the postings of exactly pages 1-3 and stops
without reaching `max_pages`. -/
theorem claim_C8 :
    (∀ render : Nat → PageView, (paginate render).pages ≤ 5)
    ∧ (∀ render : Nat → PageView,
        nextOk (render 1) = true → nextOk (render 2) = true →
        nextOk (render 3) = false →
        (paginate render).pages = 3
        ∧ (paginate render).jobs
            = extractJobs (render 1).links ++ extractJobs (render 2).links
              ++ extractJobs (render 3).links) := by
  constructor
  · intro render
    exact pagLoop_pages_le render 5 1 { jobs := [], pages := 0 }
  · intro render h1 h2 h3
    have h3' : ¬ nextOk (render 3) = true := by rw [h3]; simp
    rw [paginate, pagLoop_succ, if_pos h1, pagLoop_succ, if_pos h2,
        pagLoop_succ, if_neg h3']
    constructor
    · rfl
    · simp [List.append_assoc]

/-- A renderer with a working next-button on pages 1 and 2 only. -/
def cRender : Nat → PageView := fun p =>
  { links := [⟨"a?listingId=list_p7".toList, "Data Entry".toList⟩],
    nextVisible := decide (p < 3), nextEnabled := true, nextRaises := false }

theorem claim_C8_witness :
    (paginate cRender).pages = 3
    ∧ (paginate cRender).jobs
        = extractJobs (cRender 1).links ++ extractJobs (cRender 2).links
          ++ extractJobs (cRender 3).links :=
  claim_C8.2 cRender (by decide) (by decide) (by decide)

/-! ## Claim C10 (excluded titles are dropped before collection) -/

/-- Claim C10: a posting id whose every discovered link parses to a job
with a title the exclusion filter rejects is never collected during
pagination, never detail-fetched, classified, or recorded by Phase 2, and
the persisted ledger contains it only if the prior history already did —
so such a posting is re-encountered (and re-filtered) by every future run
instead of being remembered as processed. -/
theorem claim_C10 (render : Nat → PageView) (history : List (List Char))
    (beh : Beh) (i : List Char)
    (hex : ∀ p, ∀ l ∈ (render p).links, ∀ j : Job,
        parseLink l = some j → j.id = i → is_excluded_title j.title = true) :
    (∀ j ∈ (paginate render).jobs, j.id ≠ i)
    ∧ i ∉ (runPipeline render history beh).fetched
    ∧ i ∉ (runPipeline render history beh).classified
    ∧ i ∉ (runPipeline render history beh).processed
    ∧ (i ∈ (runPipeline render history beh).savedFinal ↔ i ∈ history) := by
  have hjobs : ∀ j ∈ (paginate render).jobs, j.id ≠ i := by
    intro j hj hji
    rcases pagLoop_jobs_mem render 5 1 { jobs := [], pages := 0 } j hj
        with h0 | ⟨p, hp⟩
    · simp at h0
    · rcases extractJobs_mem hp with ⟨l, hl, hpl, hne⟩
      rw [hex p l hl j hpl hji] at hne
      exact absurd hne (by simp)
  have hids : ∀ j2 ∈ newJobs history (paginate render).jobs, j2.id ≠ i := by
    intro j2 hj2 hji
    rcases dedup_id_sub (paginate render).jobs j2
        (List.mem_of_mem_filter hj2) with ⟨j3, hj3, hid⟩
    exact hjobs j3 hj3 (by rw [← hid, hji])
  have hnp : i ∉ (runPipeline render history beh).processed := by
    intro hmem
    have heq := foldl_processed_eq history beh
      (newJobs history (paginate render).jobs) initState
    rw [show (runPipeline render history beh).processed
          = (loopState history (paginate render).jobs beh).processed
          from rfl, loopState, heq] at hmem
    simp only [initState, List.nil_append] at hmem
    rcases List.mem_map.mp hmem with ⟨j2, hj2, hid⟩
    exact hids j2 (List.mem_of_mem_filter hj2) hid
  refine ⟨hjobs, ?_, ?_, hnp, ?_⟩
  · intro hmem
    rcases foldl_fetched_sub history beh
        (newJobs history (paginate render).jobs) initState i hmem
        with h0 | ⟨j2, hj2, hid⟩
    · simp [initState] at h0
    · exact hids j2 hj2 hid
  · intro hmem
    rcases foldl_classified_sub history beh
        (newJobs history (paginate render).jobs) initState i hmem
        with h0 | ⟨j2, hj2, hid, _⟩
    · simp [initState] at h0
    · exact hids j2 hj2 hid
  · constructor
    · intro hmem
      rcases List.mem_append.mp hmem with h1 | h1
      · exact h1
      · exact absurd h1 hnp
    · intro h1
      exact List.mem_append_left _ h1

/-- A renderer whose single link parses to an excluded title. -/
def cRenderEx : Nat → PageView := fun _ =>
  { links := [⟨"a?listingId=list_z9".toList,
      "Senior Data Annotator".toList⟩],
    nextVisible := false, nextEnabled := false, nextRaises := false }

theorem claim_C10_witness :
    "list_z9".toList ∉ (runPipeline cRenderEx [] cBehOk).fetched
    ∧ "list_z9".toList ∉ (runPipeline cRenderEx [] cBehOk).processed
    ∧ ("list_z9".toList ∈ (runPipeline cRenderEx [] cBehOk).savedFinal
        ↔ "list_z9".toList ∈ ([] : List (List Char))) := by
  have h := claim_C10 cRenderEx [] cBehOk "list_z9".toList (by
    intro p l hl j hpl hji
    rw [List.mem_singleton.mp hl] at hpl
    rw [show parseLink (⟨"a?listingId=list_z9".toList,
          "Senior Data Annotator".toList⟩ : RawLink)
        = some ⟨"list_z9".toList, "Senior Data Annotator".toList,
            "https://work.mercor.com/jobs/list_z9".toList, []⟩
        from by decide] at hpl
    injection hpl with h'
    rw [← h']
    decide)
  exact ⟨h.2.1, h.2.2.2.1, h.2.2.2.2⟩

end MercorBot
